import Mathlib

/-!
Verification of the candle reconciliation core of `trading_cex_data_feed`.

The development shallowly embeds the Python modules
`cex_data_feed/binance/validation.py`, `cex_data_feed/binance/db.py`,
`cex_data_feed/binance/cli.py` and the batch backfill script
`cex_data_feed/scripts/backfill_ohlcv_binance_1h_from_csv.py`.

Modelling conventions:
* Timestamps are integers (seconds since epoch); hourly spacing is 3600.
* Float values are modelled by `FVal`: a NaN, the two infinities, or a
  finite rational.  Pandas arithmetic on aligned Series is mirrored by
  `FVal.fsub`, `FVal.fabs` and `maxSkipNa` (pandas `Series.max` skips
  NaN entries by default, which is behaviour-relevant here).
* A DataFrame of OHLCV rows is a `List Row` in frame order.
* The DuckDB table is a `List Row` in insertion order; queries that sort
  by timestamp use an insertion sort (the table has a unique index on
  timestamp, so tie order is immaterial).
* Python exceptions that escape `run_once` are modelled by a dedicated
  `RunResult` constructor.
-/

/-- Rational subtraction computed on numerators/denominators.  Equal to
`a - b` (lemma `qsub_eq`); spelled via `Rat.divInt` so that concrete
instances reduce inside the kernel. -/
def qsub (a b : ℚ) : ℚ :=
  Rat.divInt (a.num * (b.den : ℤ) - b.num * (a.den : ℤ)) ((a.den : ℤ) * (b.den : ℤ))

/-- Rational absolute value, kernel-reducible.  Equal to `|a|`
(lemma `qabsFn_eq`). -/
def qabsFn (a : ℚ) : ℚ :=
  if a.num < 0 then Rat.divInt (-a.num) (a.den : ℤ) else a

/-- Model of a float64 cell: NaN, +inf, -inf or a finite rational. -/
inductive FVal where
  | nan : FVal
  | pinf : FVal
  | ninf : FVal
  | fin : ℚ → FVal
deriving DecidableEq, Repr

namespace FVal

/-- IEEE-style subtraction as pandas performs it elementwise. -/
def fsub : FVal → FVal → FVal
  | nan, _ => nan
  | _, nan => nan
  | pinf, pinf => nan
  | pinf, ninf => pinf
  | pinf, fin _ => pinf
  | ninf, pinf => ninf
  | ninf, ninf => nan
  | ninf, fin _ => ninf
  | fin _, pinf => ninf
  | fin _, ninf => pinf
  | fin a, fin b => fin (qsub a b)

/-- Elementwise absolute value (`Series.abs`). -/
def fabs : FVal → FVal
  | nan => nan
  | pinf => pinf
  | ninf => pinf
  | fin a => fin (qabsFn a)

/-- `pd.isna` on a scalar. -/
def isna : FVal → Bool
  | nan => true
  | _ => false

/-- Whether the value is a finite number. -/
def isFinite : FVal → Bool
  | fin _ => true
  | _ => false

/-- Binary maximum of two non-NaN floats (NaN absorbs into the other arg;
`maxSkipNa` only applies it to non-NaN values). -/
def fmax : FVal → FVal → FVal
  | nan, b => b
  | a, nan => a
  | pinf, _ => pinf
  | _, pinf => pinf
  | ninf, b => b
  | a, ninf => a
  | fin a, fin b => fin (max a b)

/-- Comparison `v > tol` against a rational tolerance, with IEEE semantics
(`NaN > tol` is false). -/
def gtQ : FVal → ℚ → Bool
  | nan, _ => false
  | pinf, _ => true
  | ninf, _ => false
  | fin a, t => decide (t < a)

/-- Rendering used in failure reasons (stands in for Python float repr). -/
def toStr : FVal → String
  | nan => "nan"
  | pinf => "inf"
  | ninf => "-inf"
  | fin a => if a.den == 1 then toString a.num else toString a.num ++ "/" ++ toString a.den

end FVal

/-- `Series.max()` with the pandas default `skipna=True`: NaN entries are
filtered out; the max of an empty or all-NaN series is NaN. -/
def maxSkipNa (l : List FVal) : FVal :=
  match l.filter (fun v => !v.isna) with
  | [] => FVal.nan
  | x :: xs => xs.foldl FVal.fmax x

/-- One OHLCV row of the canonical DataFrame / DuckDB table:
columns `timestamp, open, high, low, close, volume`. -/
structure Row where
  timestamp : ℤ
  open_ : FVal
  high : FVal
  low : FVal
  close : FVal
  volume : FVal
deriving DecidableEq, Repr

/-- Timestamp column of a frame (`df["timestamp"].tolist()`). -/
def tsList (l : List Row) : List ℤ := l.map Row.timestamp

/-- `df.tail(n)`: the last `n` rows (all rows when `n ≥ len`). -/
def takeRight (n : ℕ) (l : List α) : List α := l.drop (l.length - n)

/-- Structural insertion of `x` into a le-sorted list. -/
def insertLe (le : α → α → Bool) (x : α) : List α → List α
  | [] => [x]
  | y :: ys => if le x y then x :: y :: ys else y :: insertLe le x ys

/-- Insertion sort; stands in for `sort_values` / SQL `ORDER BY`
(tie order among equal keys is not relied upon anywhere). -/
def insertionSort (le : α → α → Bool) : List α → List α
  | [] => []
  | x :: xs => insertLe le x (insertionSort le xs)

/-- `ts.sort_values()` on the timestamp column. -/
def sortInt (l : List ℤ) : List ℤ := insertionSort (fun a b => decide (a ≤ b)) l

/-- Sort rows ascending by timestamp (`ORDER BY timestamp`). -/
def sortByTs (l : List Row) : List Row :=
  insertionSort (fun a b => decide (a.timestamp ≤ b.timestamp)) l

/-! ## validation.py -/

/-- `ValidationResult` from `validation.py`. -/
structure ValidationResult where
  ok : Bool
  reason : String
  validated_rows : ℕ
deriving DecidableEq, Repr

/-- `_is_strictly_hourly`: consecutive timestamp differences (pandas
`diff().dropna()`) must all equal 3600 seconds; `(empty).all()` is true,
so empty and single-row windows pass. -/
def is_strictly_hourly (ts : List ℤ) : Bool :=
  (List.zipWith (fun a b => b - a) ts ts.tail).all (fun d => d == 3600)

/-- Default absolute tolerance of `validate_window` (`1e-8`). -/
def default_tolerance : ℚ := Rat.divInt 1 100000000

/-- The five numeric columns compared by `validate_window`, in program
order, each with its projection. -/
def ohlcvCols : List (String × (Row → FVal)) :=
  [("open", Row.open_), ("high", Row.high), ("low", Row.low),
   ("close", Row.close), ("volume", Row.volume)]

/-- The per-column comparison loop of `validate_window` (lines 62-69):
for each column take `(db_tail[col] - api_hist[col]).abs().max()`, fail
on NaN or on exceeding the tolerance, else return the success result. -/
def checkColumns (cols : List (String × (Row → FVal))) (db_tail api_hist : List Row)
    (tolerance : ℚ) (nrows : ℕ) : ValidationResult :=
  match cols with
  | [] => ⟨true, "validated", nrows⟩
  | (name, p) :: rest =>
    let diff := maxSkipNa (List.zipWith (fun d a => ((p d).fsub (p a)).fabs) db_tail api_hist)
    if diff.isna then ⟨false, "NaN in column " ++ name, 0⟩
    else if diff.gtQ tolerance then
      ⟨false, "mismatch in " ++ name ++ " (max diff " ++ diff.toStr ++ ")", 0⟩
    else checkColumns rest db_tail api_hist tolerance nrows

/-- `validate_window(api_df, db_df, target_hour, tolerance)` from
`validation.py`.  Mirrors the source line by line: empty check, anchor
check, empty-history shortcut, hourly-spacing check (re-tried on sorted
timestamps), history-length check, exact timestamp alignment, and the
per-column tolerance comparison. -/
def validate_window (api_df db_df : List Row) (target_hour : ℤ) (tolerance : ℚ) :
    ValidationResult :=
  match api_df.getLast? with
  | none => ⟨false, "api_df empty", 0⟩
  | some lastRow =>
    if lastRow.timestamp ≠ target_hour then
      ⟨false, "api last row is not target_hour", 0⟩
    else
      let api_hist := api_df.dropLast
      if api_hist.isEmpty then ⟨true, "no historical window to validate", 0⟩
      else if !is_strictly_hourly (tsList api_df)
           && !is_strictly_hourly (sortInt (tsList api_df)) then
        ⟨false, "api window not strictly hourly", 0⟩
      else if db_df.length < api_hist.length then
        ⟨false, "db has fewer rows than validation window", 0⟩
      else
        let db_tail := takeRight api_hist.length db_df
        if tsList db_tail ≠ tsList api_hist then
          ⟨false, "timestamp mismatch between api and db", 0⟩
        else checkColumns ohlcvCols db_tail api_hist tolerance api_hist.length

/-! ## db.py -/

/-- `read_last_n_rows_ending_before`: rows strictly before the bound,
ordered by timestamp descending, limited to `n`, then re-sorted ascending
— i.e. the last `n` of the ascending sort of the filtered rows. -/
def read_last_n_rows_ending_before (store : List Row) (n : ℕ) (end_exclusive : ℤ) :
    List Row :=
  takeRight n (sortByTs (store.filter (fun r => decide (r.timestamp < end_exclusive))))

/-- `append_row_if_absent`: insert unless a row with the same timestamp
already exists (the `WHERE NOT EXISTS` guard). -/
def append_row_if_absent (store : List Row) (row : Row) : List Row :=
  if store.any (fun r => r.timestamp == row.timestamp) then store
  else store ++ [row]

/-- Sequential per-row appends in frame order (`for _, row in df.iterrows()`). -/
def appendAll (store : List Row) (rows : List Row) : List Row :=
  rows.foldl append_row_if_absent store

/-- `coverage_stats`: `None` on an empty table, else
`(MIN(timestamp), MAX(timestamp), COUNT(*))`. -/
def coverage_stats (store : List Row) : Option (ℤ × ℤ × ℕ) :=
  match store with
  | [] => none
  | r :: rs => some ((tsList rs).foldl min r.timestamp,
                     (tsList rs).foldl max r.timestamp, store.length)

/-! ## cli.py, run_once -/

/-- Outcome of one `run_once` invocation: a return code together with the
resulting Store contents, or a Python `UnboundLocalError` escaping
`run_once` (with the Store contents at the moment it is raised). -/
inductive RunResult where
  | exit : ℕ → List Row → RunResult
  | unboundLocalError : List Row → RunResult
deriving DecidableEq, Repr

/-- The Store contents after the run, whichever way it ended. -/
def RunResult.store : RunResult → List Row
  | exit _ s => s
  | unboundLocalError s => s

/-- Catch-up overlap (`closed_df[closed_df["timestamp"] <= db_max_ts]`). -/
def overlapOf (closed : List Row) (db_max_ts : ℤ) : List Row :=
  closed.filter (fun r => decide (r.timestamp ≤ db_max_ts))

/-- `k = min(len(api_overlap), max(cfg.n_recent - 1, 1))` (cli.py line 88). -/
def kOf (overlapLen n_recent : ℕ) : ℕ := min overlapLen (max (n_recent - 1) 1)

/-- Anchor timestamp of the overlap (`api_overlap.iloc[-1]["timestamp"]`);
total with default 0, only used on non-empty overlaps. -/
def t_overlapOf (overlap : List Row) : ℤ :=
  match overlap.getLast? with
  | none => 0
  | some r => r.timestamp

/-- `api_tail_for_val = api_overlap.tail(k)` (cli.py line 89). -/
def api_tail_for_valOf (overlap : List Row) (n_recent : ℕ) : List Row :=
  takeRight (kOf overlap.length n_recent) overlap

/-- `db_hist = read_last_n_rows_ending_before(path, len(api_tail_for_val) - 1,
t_overlap)` (cli.py line 90). -/
def db_histOf (store overlap : List Row) (n_recent : ℕ) : List Row :=
  read_last_n_rows_ending_before store
    ((api_tail_for_valOf overlap n_recent).length - 1) (t_overlapOf overlap)

/-- The overlap validation call of catch-up mode (cli.py line 91),
with the default tolerance. -/
def catchupValidation (store closed : List Row) (db_max_ts : ℤ) (n_recent : ℕ) :
    ValidationResult :=
  let ov := overlapOf closed db_max_ts
  validate_window (api_tail_for_valOf ov n_recent) (db_histOf store ov n_recent)
    (t_overlapOf ov) default_tolerance

/-- Catch-up branch of `run_once` (cli.py lines 70-108 and 134-140), with
`dry_run = False`, taking the already filtered closed window as input.
When the Store is empty (`coverage_stats` is `None`) the code appends the
whole closed window, but the final stats line then reads the local `v`,
which was never assigned on that path: Python raises
`UnboundLocalError`, modelled by the dedicated constructor. -/
def runOnceCatchup (closed : List Row) (target_hour : ℤ) (n_recent : ℕ)
    (store : List Row) : RunResult :=
  match closed.getLast? with
  | none => RunResult.exit 2 store
  | some lastRow =>
    if lastRow.timestamp ≠ target_hour then RunResult.exit 2 store
    else
      match coverage_stats store with
      | none => RunResult.unboundLocalError (appendAll store closed)
      | some (_, db_max_ts, _) =>
        let api_overlap := overlapOf closed db_max_ts
        if api_overlap.isEmpty then RunResult.exit 2 store
        else
          let v := catchupValidation store closed db_max_ts n_recent
          if !v.ok then RunResult.exit 2 store
          else RunResult.exit 0
            (appendAll store (closed.filter (fun r => decide (db_max_ts < r.timestamp))))

/-- Single-bar branch of `run_once` (cli.py lines 109-140), with
`dry_run = False`, taking the filtered closed window as input: read the
last `n_recent - 1` Store rows before the target hour, validate, allow a
bootstrap append when validation failed against an empty tail, and on
success or bootstrap append exactly the anchor row. -/
def runOnceSingle (closed : List Row) (target_hour : ℤ) (n_recent : ℕ)
    (store : List Row) : RunResult :=
  match closed.getLast? with
  | none => RunResult.exit 2 store
  | some row_t =>
    if row_t.timestamp ≠ target_hour then RunResult.exit 2 store
    else
      let db_window := read_last_n_rows_ending_before store (n_recent - 1) target_hour
      let v := validate_window closed db_window target_hour default_tolerance
      let allow_bootstrap := !v.ok && db_window.isEmpty
      if v.ok || allow_bootstrap then RunResult.exit 0 (append_row_if_absent store row_t)
      else RunResult.exit 1 store

/-! ## backfill_ohlcv_binance_1h_from_csv.py, clean_transform -/

/-- One raw CSV row after column normalisation: `open_time` in epoch
milliseconds, and the numeric columns as produced by
`pd.to_numeric(..., errors="coerce")` (unparseable cells become NaN). -/
structure RawRow where
  open_time : ℤ
  open_ : FVal
  high : FVal
  low : FVal
  close : FVal
  volume : FVal
deriving DecidableEq, Repr

/-- Canonical row built from a raw row (`timestamp` is the parsed
`open_time`; the unit change ms → datetime is an order-preserving
injection and is left implicit). -/
def RawRow.toRow (r : RawRow) : Row :=
  ⟨r.open_time, r.open_, r.high, r.low, r.close, r.volume⟩

/-- `dropna(subset=[...])`: keep rows whose required numeric fields are
all non-NaN (the parsed timestamp itself is never NaN). -/
def rowHasNoNan (r : Row) : Bool :=
  !r.open_.isna && !r.high.isna && !r.low.isna && !r.close.isna && !r.volume.isna

/-- `drop_duplicates(subset=["timestamp"], keep="first")`. -/
def dedupByTs (l : List Row) : List Row :=
  l.foldl (fun acc r =>
    if acc.any (fun x => x.timestamp == r.timestamp) then acc else acc ++ [r]) []

/-- The row pipeline of `clean_transform` (lines 107-136): coerce →
dropna → sort by timestamp → de-duplicate (keep first) → optional
inclusive range filter. -/
def cleanPipeline (rows : List RawRow) (start? end? : Option ℤ) : List Row :=
  let out0 := (rows.map RawRow.toRow).filter rowHasNoNan
  let out1 := dedupByTs (sortByTs out0)
  let out2 := match start? with
    | none => out1
    | some s => out1.filter (fun r => decide (s ≤ r.timestamp))
  match end? with
  | none => out2
  | some e => out2.filter (fun r => decide (r.timestamp ≤ e))

/-- `clean_transform(df, start=..., end=...)` from the backfill script.
After the pipeline, the `[CHECK]` log line (line 141) indexes
`out["timestamp"].iloc[0]`, which raises an uncaught `IndexError`
whenever the surviving frame is empty; that exception is modelled by
returning `none`, while a normal return is `some` of the cleaned rows. -/
def clean_transform (rows : List RawRow) (start? end? : Option ℤ) :
    Option (List Row) :=
  if (cleanPipeline rows start? end?).isEmpty then none
  else some (cleanPipeline rows start? end?)

/-- The finite value carried by an `FVal` (0 for non-finite values). -/
def FVal.toQ : FVal → ℚ
  | fin q => q
  | _ => 0

/-- Absolute differences of one column over aligned rows, as rationals
(meaningful when both sides are finite). -/
def colDiffsQ (p : Row → FVal) (db api : List Row) : List ℚ :=
  List.zipWith (fun d a => |(p d).toQ - (p a).toQ|) db api

/-- Column-wise finiteness of both aligned frames for a set of columns. -/
def ColsFinite (cols : List (String × (Row → FVal))) (db api : List Row) : Prop :=
  ∀ c ∈ cols, (∀ r ∈ db, (c.2 r).isFinite = true) ∧ (∀ r ∈ api, (c.2 r).isFinite = true)

/-- All five numeric fields of a row are finite numbers. -/
def rowAllFinite (r : Row) : Bool :=
  r.open_.isFinite && r.high.isFinite && r.low.isFinite
    && r.close.isFinite && r.volume.isFinite

/-! ## Sample data (used by concrete witnesses and counterexamples) -/

/-- Hourly bars 08:00-11:00 UTC on 2024-01-01 (epoch-style seconds within
the day), with distinct OHLCV values. -/
def r08 : Row := ⟨28800, .fin 100, .fin 102, .fin 98, .fin 101, .fin 10⟩

def r09 : Row := ⟨32400, .fin 110, .fin 112, .fin 108, .fin 111, .fin 11⟩

def r10 : Row := ⟨36000, .fin 120, .fin 122, .fin 118, .fin 121, .fin 12⟩

def r11 : Row := ⟨39600, .fin 130, .fin 132, .fin 128, .fin 131, .fin 13⟩

/-- A three-bar API window 08:00-10:00. -/
def apiA : List Row := [r08, r09, r10]

/-- Stored history 08:00-09:00 matching `apiA`. -/
def dbA : List Row := [r08, r09]

/-- Four closed bars 08:00-11:00 as returned by the Source. -/
def closedB : List Row := [r08, r09, r10, r11]

/-- Store containing 08:00 and 09:00 only. -/
def storeB : List Row := [r08, r09]

/-- Store already covering 08:00-11:00. -/
def storeC : List Row := [r08, r09, r10, r11]

/-- The 08:00 bar with its open replaced by NaN. -/
def nanRow08 : Row := ⟨28800, .nan, .fin 102, .fin 98, .fin 101, .fin 10⟩

/-- `apiA` with the open of the 08:00 row replaced by NaN. -/
def apiNaN : List Row := [nanRow08, r09, r10]

/-- A two-row window whose single validation row has a NaN open. -/
def apiN2 : List Row := [nanRow08, r09]

/-- One stored row aligned with the validation row of `apiN2`. -/
def dbN2 : List Row := [r08]

/-- Raw CSV rows: out of order, one NaN row, one duplicate timestamp. -/
def sampleRawRows : List RawRow :=
  [⟨32400, .fin 1, .fin 1, .fin 1, .fin 1, .fin 1⟩,
   ⟨28800, .fin 2, .nan, .fin 2, .fin 2, .fin 2⟩,
   ⟨36000, .fin 3, .fin 3, .fin 3, .fin 3, .fin 3⟩,
   ⟨32400, .fin 9, .fin 9, .fin 9, .fin 9, .fin 9⟩]

/-- The cleaned output of `sampleRawRows` with no range filter. -/
def sampleCleanOut : List Row :=
  [⟨32400, .fin 1, .fin 1, .fin 1, .fin 1, .fin 1⟩,
   ⟨36000, .fin 3, .fin 3, .fin 3, .fin 3, .fin 3⟩]

/-! ## Helper lemmas -/

theorem qsub_eq (a b : ℚ) : qsub a b = a - b := by
  have ha : ((a.den : ℚ)) ≠ 0 := by exact_mod_cast a.den_nz
  have hb : ((b.den : ℚ)) ≠ 0 := by exact_mod_cast b.den_nz
  conv_rhs => rw [← Rat.num_div_den a, ← Rat.num_div_den b]
  rw [div_sub_div _ _ ha hb]
  unfold qsub
  rw [Rat.divInt_eq_div]
  push_cast
  ring_nf

theorem qabsFn_eq (a : ℚ) : qabsFn a = |a| := by
  unfold qabsFn
  split
  · next h =>
    have hneg : a < 0 := by
      by_contra hc
      push_neg at hc
      exact absurd (Rat.num_nonneg.mpr hc) (not_le.mpr h)
    rw [abs_of_neg hneg, Rat.neg_def a]
  · next h =>
    have h0 : 0 ≤ a := Rat.num_nonneg.mp (not_lt.mp h)
    rw [abs_of_nonneg h0]

theorem FVal.isFinite_iff {v : FVal} : v.isFinite = true ↔ ∃ q, v = FVal.fin q := by
  cases v <;> simp [FVal.isFinite]

theorem foldl_max_le {α : Type} [LinearOrder α] (l : List α) (a c : α)
    (ha : a ≤ c) (h : ∀ x ∈ l, x ≤ c) : l.foldl max a ≤ c := by
  induction l generalizing a with
  | nil => exact ha
  | cons x xs ih =>
    exact ih (max a x) (max_le ha (h x (by simp))) (fun y hy => h y (by simp [hy]))

theorem le_foldl_max {α : Type} [LinearOrder α] (l : List α) (a : α) :
    a ≤ l.foldl max a := by
  induction l generalizing a with
  | nil => exact le_refl a
  | cons x xs ih => exact le_trans (le_max_left a x) (ih (max a x))

theorem mem_le_foldl_max {α : Type} [LinearOrder α] (l : List α) (a : α) :
    ∀ x ∈ l, x ≤ l.foldl max a := by
  induction l generalizing a with
  | nil => intro x hx; cases hx
  | cons y ys ih =>
    intro x hx
    rcases List.mem_cons.mp hx with h | h
    · subst h
      exact le_trans (le_max_right a x) (le_foldl_max ys (max a x))
    · exact ih (max a y) x h

theorem foldl_max_mem {α : Type} [LinearOrder α] (l : List α) (a : α) :
    l.foldl max a = a ∨ l.foldl max a ∈ l := by
  induction l generalizing a with
  | nil => left; rfl
  | cons x xs ih =>
    rcases ih (max a x) with h | h
    · rcases max_choice a x with hm | hm
      · left; rw [List.foldl_cons, h, hm]
      · right; rw [List.foldl_cons, h, hm]; simp
    · right; simp [h]

theorem fmax_fin (a b : ℚ) : FVal.fmax (FVal.fin a) (FVal.fin b) = FVal.fin (max a b) := rfl

theorem foldl_fmax_map_fin (l : List ℚ) (a : ℚ) :
    (l.map FVal.fin).foldl FVal.fmax (FVal.fin a) = FVal.fin (l.foldl max a) := by
  induction l generalizing a with
  | nil => rfl
  | cons x xs ih => simp only [List.map_cons, List.foldl_cons, fmax_fin, ih]

/-- `maxSkipNa` on a non-empty list of finite values is the finite maximum. -/
theorem maxSkipNa_map_fin (a : ℚ) (l : List ℚ) :
    maxSkipNa ((a :: l).map FVal.fin) = FVal.fin (l.foldl max a) := by
  have hfilter : ((a :: l).map FVal.fin).filter (fun v => !v.isna) = (a :: l).map FVal.fin := by
    apply List.filter_eq_self.mpr
    intro v hv
    rcases List.mem_map.mp hv with ⟨q, _, rfl⟩
    rfl
  unfold maxSkipNa
  rw [hfilter]
  simp only [List.map_cons]
  exact foldl_fmax_map_fin l a

theorem zip_diffs_map_fin (p : Row → FVal) (db api : List Row)
    (hdb : ∀ r ∈ db, (p r).isFinite = true) (hapi : ∀ r ∈ api, (p r).isFinite = true) :
    List.zipWith (fun d a => ((p d).fsub (p a)).fabs) db api
      = (colDiffsQ p db api).map FVal.fin := by
  induction db generalizing api with
  | nil => simp [colDiffsQ]
  | cons d ds ih =>
    cases api with
    | nil => simp [colDiffsQ]
    | cons a as =>
      obtain ⟨q1, hq1⟩ := FVal.isFinite_iff.mp (hdb d (by simp))
      obtain ⟨q2, hq2⟩ := FVal.isFinite_iff.mp (hapi a (by simp))
      have hrest := ih as (fun r hr => hdb r (by simp [hr])) (fun r hr => hapi r (by simp [hr]))
      simp only [colDiffsQ, List.zipWith_cons_cons, List.map_cons] at *
      rw [hq1, hq2, hrest]
      simp [FVal.fsub, FVal.fabs, FVal.toQ, qsub_eq, qabsFn_eq]

/-- On aligned non-empty finite columns, the pandas max is the finite
maximum of the rational differences: it is an upper bound and attained. -/
theorem colDiff_fin (p : Row → FVal) (db api : List Row)
    (hdb : ∀ r ∈ db, (p r).isFinite = true) (hapi : ∀ r ∈ api, (p r).isFinite = true)
    (hne : api ≠ []) (hlen : db.length = api.length) :
    ∃ m, maxSkipNa (List.zipWith (fun d a => ((p d).fsub (p a)).fabs) db api) = FVal.fin m
      ∧ (∀ x ∈ colDiffsQ p db api, x ≤ m) ∧ m ∈ colDiffsQ p db api := by
  rw [zip_diffs_map_fin p db api hdb hapi]
  have hzne : colDiffsQ p db api ≠ [] := by
    unfold colDiffsQ
    cases api with
    | nil => exact absurd rfl hne
    | cons a as =>
      cases db with
      | nil => simp at hlen
      | cons d ds => simp
  obtain ⟨q, l, hql⟩ := List.exists_cons_of_ne_nil hzne
  rw [hql, maxSkipNa_map_fin]
  refine ⟨l.foldl max q, rfl, ?_, ?_⟩
  · intro x hx
    rcases List.mem_cons.mp hx with h | h
    · subst h; exact le_foldl_max l x
    · exact mem_le_foldl_max l q x h
  · rcases foldl_max_mem l q with h | h
    · rw [h]; simp
    · simp [h]

theorem string_append_len_pos (s t : String) (hs : 0 < s.length) :
    0 < (s ++ t).length := by
  rw [String.length_append]
  omega

/-- Structural invariant of the column loop: `validated_rows` is `n` on
success and 0 on failure, and every reason is a non-empty string. -/
theorem checkColumns_stats (cols : List (String × (Row → FVal))) (db api : List Row)
    (tol : ℚ) (n : ℕ) :
    (checkColumns cols db api tol n).validated_rows
        = (if (checkColumns cols db api tol n).ok then n else 0)
      ∧ 0 < (checkColumns cols db api tol n).reason.length := by
  induction cols with
  | nil =>
    constructor
    · simp [checkColumns]
    · show 0 < ("validated" : String).length
      decide
  | cons c rest ih =>
    obtain ⟨nm, p⟩ := c
    simp only [checkColumns]
    split
    · exact ⟨rfl, string_append_len_pos _ _ (by decide)⟩
    · split
      · refine ⟨rfl, ?_⟩
        simp only [String.append_assoc]
        exact string_append_len_pos _ _ (by decide)
      · exact ih

theorem fin_isna (m : ℚ) : (FVal.fin m).isna = false := rfl

theorem fin_gtQ (m tol : ℚ) : (FVal.fin m).gtQ tol = decide (tol < m) := rfl

/-- Over finite aligned non-empty frames, the column loop succeeds exactly
when every column's differences are all within tolerance. -/
theorem checkColumns_ok_iff (cols : List (String × (Row → FVal))) (db api : List Row)
    (tol : ℚ) (n : ℕ) (hne : api ≠ []) (hlen : db.length = api.length)
    (hfin : ColsFinite cols db api) :
    (checkColumns cols db api tol n).ok = true
      ↔ ∀ c ∈ cols, ∀ x ∈ colDiffsQ c.2 db api, x ≤ tol := by
  induction cols with
  | nil => simp [checkColumns]
  | cons c rest ih =>
    obtain ⟨nm, p⟩ := c
    obtain ⟨hfdb, hfapi⟩ := hfin (nm, p) (by simp)
    obtain ⟨m, hm, hub, hmem⟩ := colDiff_fin p db api hfdb hfapi hne hlen
    have hrest := ih (fun c hc => hfin c (by simp [hc]))
    simp only [checkColumns, hm, fin_isna, fin_gtQ]
    rw [if_neg (by simp)]
    by_cases hgt : tol < m
    · rw [if_pos (by simp [hgt])]
      constructor
      · intro h; cases h
      · intro h
        exact absurd (h (nm, p) (by simp) m hmem) (not_le.mpr hgt)
    · rw [if_neg (by simp [hgt])]
      rw [hrest]
      constructor
      · intro h c hc
        rcases List.mem_cons.mp hc with hh | hh
        · subst hh
          intro x hx
          exact le_trans (hub x hx) (not_lt.mp hgt)
        · exact h c hh
      · intro h c hc
        exact h c (by simp [hc])

/-- If one column's differences exceed the tolerance while every other
column is finite and within tolerance, the loop fails naming exactly that
column (columns are checked in order; only the named one can fire). -/
theorem checkColumns_mismatch (cols : List (String × (Row → FVal))) (db api : List Row)
    (tol : ℚ) (n : ℕ) (nm : String) (p : Row → FVal)
    (hmem : (nm, p) ∈ cols) (hnodup : (cols.map Prod.fst).Nodup)
    (hne : api ≠ []) (hlen : db.length = api.length)
    (hfin : ColsFinite cols db api)
    (hexceed : ∃ x ∈ colDiffsQ p db api, tol < x)
    (hothers : ∀ c ∈ cols, c.1 ≠ nm → ∀ x ∈ colDiffsQ c.2 db api, x ≤ tol) :
    (checkColumns cols db api tol n).ok = false
      ∧ ∃ s, (checkColumns cols db api tol n).reason = "mismatch in " ++ nm ++ s := by
  induction cols with
  | nil => cases hmem
  | cons c rest ih =>
    obtain ⟨nm0, p0⟩ := c
    obtain ⟨hfdb, hfapi⟩ := hfin (nm0, p0) (by simp)
    obtain ⟨m, hm, hub, hmemm⟩ := colDiff_fin p0 db api hfdb hfapi hne hlen
    by_cases hhead : nm0 = nm
    · subst hhead
      have hp : p = p0 := by
        rcases List.mem_cons.mp hmem with hh | hh
        · exact (Prod.ext_iff.mp hh).2
        · exfalso
          have : nm0 ∈ rest.map Prod.fst := List.mem_map.mpr ⟨(nm0, p), hh, rfl⟩
          exact (List.nodup_cons.mp hnodup).1 this
      subst hp
      obtain ⟨x, hx, hxgt⟩ := hexceed
      have hmgt : tol < m := lt_of_lt_of_le hxgt (hub x hx)
      simp only [checkColumns, hm, fin_isna, fin_gtQ]
      rw [if_neg (by simp), if_pos (by simp [hmgt])]
      exact ⟨rfl, " (max diff " ++ (FVal.fin m).toStr ++ ")", by
        simp [String.append_assoc]⟩
    · have hpass : ∀ x ∈ colDiffsQ p0 db api, x ≤ tol :=
        hothers (nm0, p0) (by simp) hhead
      have hmle : m ≤ tol := hpass m hmemm
      simp only [checkColumns, hm, fin_isna, fin_gtQ]
      rw [if_neg (by simp), if_neg (by simp [not_lt.mpr hmle])]
      have hmem' : (nm, p) ∈ rest := by
        rcases List.mem_cons.mp hmem with hh | hh
        · exact absurd (Prod.ext_iff.mp hh).1 (fun h => hhead h.symm)
        · exact hh
      exact ih hmem' (List.nodup_cons.mp hnodup).2
        (fun c hc => hfin c (by simp [hc]))
        (fun c hc hcnm => hothers c (by simp [hc]) hcnm)

theorem maxSkipNa_all_isna (l : List FVal) (h : l.all FVal.isna = true) :
    maxSkipNa l = FVal.nan := by
  unfold maxSkipNa
  have : l.filter (fun v => !v.isna) = [] := by
    apply List.filter_eq_nil_iff.mpr
    intro v hv
    simp [List.all_eq_true.mp h v hv]
  rw [this]

/-- If one column's aligned differences are all NaN while every other
column is finite and within tolerance, the loop fails with the NaN reason
naming exactly that column. -/
theorem checkColumns_nan (cols : List (String × (Row → FVal))) (db api : List Row)
    (tol : ℚ) (n : ℕ) (nm : String) (p : Row → FVal)
    (hmem : (nm, p) ∈ cols) (hnodup : (cols.map Prod.fst).Nodup)
    (hne : api ≠ []) (hlen : db.length = api.length)
    (hallnan : (List.zipWith (fun d a => ((p d).fsub (p a)).fabs) db api).all FVal.isna = true)
    (hothers : ∀ c ∈ cols, c.1 ≠ nm →
      (∀ r ∈ db, (c.2 r).isFinite = true) ∧ (∀ r ∈ api, (c.2 r).isFinite = true)
        ∧ ∀ x ∈ colDiffsQ c.2 db api, x ≤ tol) :
    checkColumns cols db api tol n = ⟨false, "NaN in column " ++ nm, 0⟩ := by
  induction cols with
  | nil => cases hmem
  | cons c rest ih =>
    obtain ⟨nm0, p0⟩ := c
    by_cases hhead : nm0 = nm
    · subst hhead
      have hp : p = p0 := by
        rcases List.mem_cons.mp hmem with hh | hh
        · exact (Prod.ext_iff.mp hh).2
        · exfalso
          have : nm0 ∈ rest.map Prod.fst := List.mem_map.mpr ⟨(nm0, p), hh, rfl⟩
          exact (List.nodup_cons.mp hnodup).1 this
      subst hp
      simp only [checkColumns, maxSkipNa_all_isna _ hallnan]
      rw [if_pos (show FVal.nan.isna = true from rfl)]
    · obtain ⟨hfdb, hfapi, hwithin⟩ := hothers (nm0, p0) (by simp) hhead
      obtain ⟨m, hm, hub, hmemm⟩ := colDiff_fin p0 db api hfdb hfapi hne hlen
      have hmle : m ≤ tol := hwithin m hmemm
      simp only [checkColumns, hm, fin_isna, fin_gtQ]
      rw [if_neg (by simp), if_neg (by simp [not_lt.mpr hmle])]
      have hmem' : (nm, p) ∈ rest := by
        rcases List.mem_cons.mp hmem with hh | hh
        · exact absurd (Prod.ext_iff.mp hh).1 (fun h => hhead h.symm)
        · exact hh
      exact ih hmem' (List.nodup_cons.mp hnodup).2
        (fun c hc hcnm => hothers c (by simp [hc]) hcnm)

/-- When `api_df = hist ++ [lastRow]` passes the structural gates
(non-empty history, anchor match, hourly spacing, enough stored rows,
aligned timestamps), `validate_window` reduces to the column loop. -/
theorem validate_window_run (hist : List Row) (lastRow : Row) (db : List Row) (tol : ℚ)
    (hne : hist ≠ [])
    (hhour : is_strictly_hourly (tsList (hist ++ [lastRow])) = true)
    (hdblen : hist.length ≤ db.length)
    (hts : tsList (takeRight hist.length db) = tsList hist) :
    validate_window (hist ++ [lastRow]) db lastRow.timestamp tol
      = checkColumns ohlcvCols (takeRight hist.length db) hist tol hist.length := by
  simp only [validate_window, List.getLast?_concat, List.dropLast_concat]
  rw [if_neg (by simp)]
  rw [if_neg (by simp [List.isEmpty_iff, hne])]
  rw [if_neg (by simp [hhour])]
  rw [if_neg (by omega)]
  rw [if_neg (by simp [hts])]

theorem getLast?_eq_none_iff {α : Type} {l : List α} : l.getLast? = none ↔ l = [] := by
  cases l with
  | nil => simp
  | cons x xs => simp [List.getLast?_eq_getLast]

/-- Full branch analysis of `validate_window`: the row count is the size
of the validation range on success and 0 on failure, and every reason is
non-empty. -/
theorem validate_window_invariant_aux (api db : List Row) (t : ℤ) (tol : ℚ) :
    (validate_window api db t tol).validated_rows
        = (if (validate_window api db t tol).ok then api.length - 1 else 0)
      ∧ 0 < (validate_window api db t tol).reason.length := by
  cases h : api.getLast? with
  | none =>
    simp only [validate_window, h]
    exact ⟨rfl, by decide⟩
  | some lastRow =>
    have hne : api ≠ [] := by
      intro hc
      rw [hc] at h
      cases h
    simp only [validate_window, h]
    split
    · exact ⟨rfl, by decide⟩
    · split
      · next hemp =>
        have : api.dropLast = [] := by
          cases he : api.dropLast with
          | nil => rfl
          | cons x xs => rw [he] at hemp; cases hemp
        have hlen1 : api.length - 1 = 0 := by
          rw [← List.length_dropLast, this]
          rfl
        simp [hlen1]
        decide
      · split
        · exact ⟨rfl, by decide⟩
        · split
          · exact ⟨rfl, by decide⟩
          · split
            · exact ⟨rfl, by decide⟩
            · rw [← List.length_dropLast]
              exact checkColumns_stats ohlcvCols
                (takeRight api.dropLast.length db) api.dropLast tol api.dropLast.length

/-- The continuity check agrees with the chain of exact one-hour steps. -/
theorem is_strictly_hourly_iff_chain (ts : List ℤ) :
    is_strictly_hourly ts = true ↔ List.Chain' (fun a b => b - a = 3600) ts := by
  induction ts with
  | nil => simp [is_strictly_hourly]
  | cons a l ih =>
    cases l with
    | nil => simp [is_strictly_hourly]
    | cons b l2 =>
      have hstep : is_strictly_hourly (a :: b :: l2)
          = ((b - a == 3600) && is_strictly_hourly (b :: l2)) := rfl
      rw [hstep, List.chain'_cons, Bool.and_eq_true, ih]
      simp [beq_iff_eq]

/-- Whenever the validation range is non-empty and the stored tail is
shorter than it, `validate_window` fails (by the history-length gate or,
if the window is not hourly, by the spacing gate before it). -/
theorem validate_window_short_db (api db : List Row) (anchor : ℤ) (tol : ℚ)
    (hlast : (api.getLast?).map Row.timestamp = some anchor)
    (hdb : db.length < api.length - 1) :
    (validate_window api db anchor tol).ok = false := by
  cases h : api.getLast? with
  | none => rw [h] at hlast; cases hlast
  | some r =>
    rw [h] at hlast
    have hr : r.timestamp = anchor := by
      injection hlast
    have hdropne : api.dropLast ≠ [] := by
      intro hc
      have := congrArg List.length hc
      rw [List.length_dropLast] at this
      simp at this
      omega
    simp only [validate_window, h]
    rw [if_neg (by simp [hr])]
    rw [if_neg (by simp [List.isEmpty_iff, hdropne])]
    by_cases hh : (!is_strictly_hourly (tsList api)
        && !is_strictly_hourly (sortInt (tsList api))) = true
    · rw [if_pos hh]
    · rw [if_neg hh]
      rw [if_pos (by rw [List.length_dropLast]; exact hdb)]

theorem mem_insertLe {α : Type} (le : α → α → Bool) (x a : α) (l : List α) :
    a ∈ insertLe le x l ↔ a = x ∨ a ∈ l := by
  induction l with
  | nil => simp [insertLe]
  | cons y ys ih =>
    simp only [insertLe]
    split
    · simp [or_comm, or_assoc, or_left_comm]
    · simp only [List.mem_cons, ih]
      tauto

theorem mem_insertionSort {α : Type} (le : α → α → Bool) (a : α) (l : List α) :
    a ∈ insertionSort le l ↔ a ∈ l := by
  induction l with
  | nil => simp [insertionSort]
  | cons y ys ih => simp [insertionSort, mem_insertLe, ih]

theorem length_insertLe {α : Type} (le : α → α → Bool) (x : α) (l : List α) :
    (insertLe le x l).length = l.length + 1 := by
  induction l with
  | nil => rfl
  | cons y ys ih =>
    simp only [insertLe]
    split
    · simp
    · simp [ih]

theorem length_insertionSort {α : Type} (le : α → α → Bool) (l : List α) :
    (insertionSort le l).length = l.length := by
  induction l with
  | nil => rfl
  | cons y ys ih => simp [insertionSort, length_insertLe, ih]

theorem takeRight_length_le {α : Type} (n : ℕ) (l : List α) :
    (takeRight n l).length ≤ n := by
  simp only [takeRight, List.length_drop]
  omega

theorem takeRight_length_of_le {α : Type} (n : ℕ) (l : List α) (h : n ≤ l.length) :
    (takeRight n l).length = n := by
  simp only [takeRight, List.length_drop]
  omega

theorem mem_takeRight {α : Type} (n : ℕ) (l : List α) (a : α) (h : a ∈ takeRight n l) :
    a ∈ l := List.mem_of_mem_drop h

/-- Every row returned by the tail query is strictly before the bound. -/
theorem read_rows_lt (store : List Row) (n : ℕ) (t : ℤ) :
    ∀ r ∈ read_last_n_rows_ending_before store n t, r.timestamp < t := by
  intro r hr
  have h1 := mem_takeRight _ _ _ hr
  rw [sortByTs, mem_insertionSort] at h1
  have := List.of_mem_filter h1
  simpa using this

/-- The tail query returns at most `n` rows. -/
theorem read_length_le (store : List Row) (n : ℕ) (t : ℤ) :
    (read_last_n_rows_ending_before store n t).length ≤ n :=
  takeRight_length_le n _

/-- `MAX(timestamp)` reported by `coverage_stats` dominates the table. -/
theorem coverage_max_ub (store : List Row) (mn mx : ℤ) (cnt : ℕ)
    (h : coverage_stats store = some (mn, mx, cnt)) :
    ∀ r ∈ store, r.timestamp ≤ mx := by
  cases store with
  | nil => cases h
  | cons r0 rs =>
    simp only [coverage_stats, Option.some.injEq, Prod.mk.injEq] at h
    obtain ⟨-, hmx, -⟩ := h
    intro r hr
    rcases List.mem_cons.mp hr with hh | hh
    · subst hh
      rw [← hmx]
      exact le_foldl_max _ _
    · rw [← hmx]
      exact mem_le_foldl_max (tsList rs) r0.timestamp r.timestamp
        (List.mem_map.mpr ⟨r, hh, rfl⟩)

/-- A non-empty table always has coverage. -/
theorem coverage_stats_ne_none (store : List Row) (hne : store ≠ []) :
    ∃ mn mx cnt, coverage_stats store = some (mn, mx, cnt) := by
  cases store with
  | nil => exact absurd rfl hne
  | cons r rs => exact ⟨_, _, _, rfl⟩

theorem append_absent (store : List Row) (row : Row)
    (h : ∀ s ∈ store, s.timestamp ≠ row.timestamp) :
    append_row_if_absent store row = store ++ [row] := by
  unfold append_row_if_absent
  rw [if_neg]
  intro hc
  obtain ⟨s, hs, hbeq⟩ := List.any_eq_true.mp hc
  exact h s hs (by simpa using hbeq)

theorem append_present (store : List Row) (row : Row)
    (h : ∃ s ∈ store, s.timestamp = row.timestamp) :
    append_row_if_absent store row = store := by
  unfold append_row_if_absent
  rw [if_pos]
  obtain ⟨s, hs, heq⟩ := h
  exact List.any_eq_true.mpr ⟨s, hs, by simpa using heq⟩

/-- Appending rows whose timestamps are fresh and pairwise distinct is
plain concatenation, in order. -/
theorem appendAll_eq_append (store rows : List Row)
    (hfresh : ∀ r ∈ rows, ∀ s ∈ store, s.timestamp ≠ r.timestamp)
    (hdist : List.Pairwise (fun a b : Row => a.timestamp ≠ b.timestamp) rows) :
    appendAll store rows = store ++ rows := by
  induction rows generalizing store with
  | nil => simp [appendAll]
  | cons r rest ih =>
    have h1 : append_row_if_absent store r = store ++ [r] :=
      append_absent store r (fun s hs => hfresh r (by simp) s hs)
    have h2 : appendAll (store ++ [r]) rest = (store ++ [r]) ++ rest := by
      apply ih
      · intro r' hr' s hs
        rcases List.mem_append.mp hs with hh | hh
        · exact hfresh r' (by simp [hr']) s hh
        · have : s = r := by simpa using hh
          subst this
          exact (List.pairwise_cons.mp hdist).1 r' hr'
      · exact (List.pairwise_cons.mp hdist).2
    calc appendAll store (r :: rest)
        = appendAll (append_row_if_absent store r) rest := rfl
      _ = appendAll (store ++ [r]) rest := by rw [h1]
      _ = (store ++ [r]) ++ rest := h2
      _ = store ++ r :: rest := by simp

theorem default_tolerance_eq : default_tolerance = 1 / 100000000 := by
  unfold default_tolerance
  rw [Rat.divInt_eq_div]
  norm_num

theorem rowAllFinite_cols (r : Row) (h : rowAllFinite r = true) :
    ∀ c ∈ ohlcvCols, (c.2 r).isFinite = true := by
  intro c hc
  simp only [rowAllFinite, Bool.and_eq_true] at h
  obtain ⟨⟨⟨⟨h1, h2⟩, h3⟩, h4⟩, h5⟩ := h
  simp only [ohlcvCols, List.mem_cons, List.mem_singleton] at hc
  rcases hc with rfl | rfl | rfl | rfl | rfl | hc
  · exact h1
  · exact h2
  · exact h3
  · exact h4
  · exact h5
  · cases hc

theorem colsFinite_of_rows (db api : List Row)
    (hdb : ∀ r ∈ db, rowAllFinite r = true) (hapi : ∀ r ∈ api, rowAllFinite r = true) :
    ColsFinite ohlcvCols db api := by
  intro c hc
  exact ⟨fun r hr => rowAllFinite_cols r (hdb r hr) c hc,
         fun r hr => rowAllFinite_cols r (hapi r hr) c hc⟩

/-- `MAX(timestamp)` is attained by some stored row. -/
theorem coverage_max_mem (store : List Row) (mn mx : ℤ) (cnt : ℕ)
    (h : coverage_stats store = some (mn, mx, cnt)) :
    ∃ s ∈ store, s.timestamp = mx := by
  cases store with
  | nil => cases h
  | cons r0 rs =>
    simp only [coverage_stats, Option.some.injEq, Prod.mk.injEq] at h
    obtain ⟨-, hmx, -⟩ := h
    rcases foldl_max_mem (tsList rs) r0.timestamp with hh | hh
    · exact ⟨r0, by simp, by rw [← hmx, hh]⟩
    · obtain ⟨s, hs, hts⟩ := List.mem_map.mp hh
      exact ⟨s, by simp [hs], by rw [← hmx, hts]⟩

/-! ## Claim theorems -/

/-- C6: the continuity check returns true for every empty or single-row
window, and for longer windows it returns true iff every pair of
consecutive timestamps differs by exactly 3600 seconds; the hourly window
08:00, 09:00, 10:00 passes and 08:00, 09:00, 11:00 fails. -/
theorem continuity_check_correct :
    is_strictly_hourly [] = true
  ∧ (∀ t : ℤ, is_strictly_hourly [t] = true)
  ∧ (∀ ts : List ℤ, is_strictly_hourly ts = true
        ↔ List.Chain' (fun a b => b - a = 3600) ts)
  ∧ is_strictly_hourly [28800, 32400, 36000] = true
  ∧ is_strictly_hourly [28800, 32400, 39600] = false :=
  ⟨rfl, fun _ => rfl, is_strictly_hourly_iff_chain, by decide, by decide⟩

/-- C9: for every input, `validate_window` reports `validated_rows = 0`
on failure and `len(incoming) - 1` on success, and its reason string is
never empty. -/
theorem validate_window_result_invariant (api db : List Row) (t : ℤ) (tol : ℚ) :
    (validate_window api db t tol).validated_rows
        = (if (validate_window api db t tol).ok then api.length - 1 else 0)
      ∧ 0 < (validate_window api db t tol).reason.length :=
  validate_window_invariant_aux api db t tol

/-- C7: on a Store with unique timestamps, appending the same candle twice
leaves exactly one row at that timestamp, the second call is a no-op, and
rows at every other timestamp are untouched. -/
theorem append_row_if_absent_idempotent (store : List Row) (row : Row)
    (hnodup : (tsList store).Nodup) :
    append_row_if_absent (append_row_if_absent store row) row
        = append_row_if_absent store row
  ∧ (tsList (append_row_if_absent (append_row_if_absent store row) row)).count
        row.timestamp = 1
  ∧ ∀ t : ℤ, t ≠ row.timestamp →
      (append_row_if_absent (append_row_if_absent store row) row).filter
          (fun r => r.timestamp == t)
        = store.filter (fun r => r.timestamp == t) := by
  by_cases hmem : ∃ s ∈ store, s.timestamp = row.timestamp
  · have h1 : append_row_if_absent store row = store := append_present store row hmem
    rw [h1, h1]
    refine ⟨rfl, ?_, fun t ht => rfl⟩
    obtain ⟨s, hs, hts⟩ := hmem
    exact List.count_eq_one_of_mem hnodup (List.mem_map.mpr ⟨s, hs, hts⟩)
  · push_neg at hmem
    have h1 : append_row_if_absent store row = store ++ [row] :=
      append_absent store row hmem
    have h2 : append_row_if_absent (store ++ [row]) row = store ++ [row] :=
      append_present _ row ⟨row, by simp, rfl⟩
    rw [h1, h2]
    refine ⟨rfl, ?_, fun t ht => ?_⟩
    · have hnotmem : row.timestamp ∉ tsList store := by
        intro hc
        obtain ⟨s, hs, hts⟩ := List.mem_map.mp hc
        exact hmem s hs hts
      simp only [tsList] at hnotmem ⊢
      simp only [List.map_append, List.count_append]
      rw [List.count_eq_zero_of_not_mem hnotmem]
      simp
    · rw [List.filter_append]
      have : ([row].filter (fun r => r.timestamp == t)) = [] := by
        simp [ht.symm]
      rw [this, List.append_nil]

/-- C3 (code bug): in catch-up mode on an empty Store, `run_once` does
append the whole closed window, but the final stats line then reads the
never-assigned local `v` and the run dies with an `UnboundLocalError`
instead of completing successfully. -/
theorem catchup_bootstrap_unbound_local :
    runOnceCatchup closedB 39600 4 [] = RunResult.unboundLocalError closedB := by
  decide

/-- C4 counterexample: with `n_recent = 4` and the Store already covering
all four closed bars, the overlap has 4 rows, so the claimed tail read
size is `len(overlap) − 1 = 3`, but the code requests
`min(len(overlap), max(n_recent − 1, 1)) − 1 = 2` rows. -/
theorem catchup_tail_read_size_counterexample :
    (overlapOf closedB 39600).length - 1 = 3
  ∧ ((api_tail_for_valOf (overlapOf closedB 39600) 4).length - 1 = 2)
  ∧ (db_histOf storeC (overlapOf closedB 39600) 4).length = 2 := by
  refine ⟨by decide, by decide, by decide⟩

/-- C2 counterexample: a NaN open value in the first of two validation
rows is skipped by the pandas max (`skipna=True`) because the second row
yields a finite difference, and validation succeeds despite the NaN. -/
theorem nan_masked_counterexample :
    (∃ r ∈ apiNaN, r.open_ = FVal.nan)
  ∧ validate_window apiNaN dbA 36000 default_tolerance
      = ⟨true, "validated", 2⟩ := by
  refine ⟨by decide, by decide⟩

/-- Witness for C7 at a concrete store. -/
theorem append_row_if_absent_idempotent_witness :
    append_row_if_absent (append_row_if_absent [r08] r10) r10
        = append_row_if_absent [r08] r10
    ∧ (tsList (append_row_if_absent (append_row_if_absent [r08] r10) r10)).count
        r10.timestamp = 1 :=
  ⟨(append_row_if_absent_idempotent [r08] r10 (by decide)).1,
   (append_row_if_absent_idempotent [r08] r10 (by decide)).2.1⟩

/-- C4 amended: with a non-empty Store of max `mx` and a non-empty
overlap, catch-up anchors validation at the overlap's last timestamp and
supplies a Store tail read bounded by `min(len(overlap),
max(n_recent − 1, 1)) − 1` rows, all strictly before that anchor, passing
the last `min(len(overlap), max(n_recent − 1, 1))` rows of the overlap to
the same `validate_window`; the run then branches only on that
validation. -/
theorem catchup_validation_args (closed store : List Row) (target mn mx : ℤ)
    (cnt n : ℕ) (lastRow : Row)
    (hcov : coverage_stats store = some (mn, mx, cnt))
    (hlast : closed.getLast? = some lastRow)
    (hts : lastRow.timestamp = target)
    (hov : overlapOf closed mx ≠ []) :
    (api_tail_for_valOf (overlapOf closed mx) n).length
        = min (overlapOf closed mx).length (max (n - 1) 1)
  ∧ (∀ r ∈ db_histOf store (overlapOf closed mx) n,
        r.timestamp < t_overlapOf (overlapOf closed mx))
  ∧ (db_histOf store (overlapOf closed mx) n).length
        ≤ min (overlapOf closed mx).length (max (n - 1) 1) - 1
  ∧ (∃ r, (overlapOf closed mx).getLast? = some r
        ∧ t_overlapOf (overlapOf closed mx) = r.timestamp)
  ∧ runOnceCatchup closed target n store
      = (if (catchupValidation store closed mx n).ok
         then RunResult.exit 0
            (appendAll store (closed.filter (fun r => decide (mx < r.timestamp))))
         else RunResult.exit 2 store) := by
  have hklen : (api_tail_for_valOf (overlapOf closed mx) n).length
      = kOf (overlapOf closed mx).length n := by
    unfold api_tail_for_valOf
    exact takeRight_length_of_le _ _ (Nat.min_le_left _ _)
  refine ⟨by rw [hklen]; rfl, ?_, ?_, ?_, ?_⟩
  · intro r hr
    exact read_rows_lt store _ _ r hr
  · have := read_length_le store
      ((api_tail_for_valOf (overlapOf closed mx) n).length - 1)
      (t_overlapOf (overlapOf closed mx))
    unfold db_histOf
    rw [hklen] at this ⊢
    exact this
  · obtain ⟨r, hr⟩ :=
      Option.ne_none_iff_exists'.mp
        (fun hc => hov (getLast?_eq_none_iff.mp hc))
    exact ⟨r, hr, by unfold t_overlapOf; rw [hr]⟩
  · simp only [runOnceCatchup, hlast, hcov]
    rw [if_neg (by simp [hts])]
    rw [if_neg (by simp [List.isEmpty_iff, hov])]
    cases hvok : (catchupValidation store closed mx n).ok with
    | true => simp [hvok]
    | false => simp [hvok]

/-- Witness for C4's amended theorem at the repo's own catch-up scenario
(Store 08:00-09:00, closed window 08:00-11:00, `n_recent = 4`). -/
theorem catchup_validation_args_witness :
    (api_tail_for_valOf (overlapOf closedB 32400) 4).length
      = min (overlapOf closedB 32400).length (max (4 - 1) 1) :=
  (catchup_validation_args closedB storeB 39600 28800 32400 2 4 r11
    (by decide) (by decide) (by decide) (by decide)).1

/-- C2 amended: NaN detection fires per column only when the pandas max
has nothing to skip to: if some column's aligned differences are all NaN
(for instance a single-row validation range with a NaN on either side)
while every other column is finite and within tolerance, the result is
`ok=false` with reason naming that column.  A NaN at only some aligned
positions of a column is skipped by `Series.max()` and does not by itself
fail validation (see the counterexample). -/
theorem validate_window_all_nan_column (hist db : List Row) (lastRow : Row)
    (tol : ℚ) (nm : String) (p : Row → FVal)
    (hne : hist ≠ [])
    (hhour : is_strictly_hourly (tsList (hist ++ [lastRow])) = true)
    (hdblen : hist.length ≤ db.length)
    (hts : tsList (takeRight hist.length db) = tsList hist)
    (hmem : (nm, p) ∈ ohlcvCols)
    (hallnan : (List.zipWith (fun d a => ((p d).fsub (p a)).fabs)
        (takeRight hist.length db) hist).all FVal.isna = true)
    (hothers : ∀ c ∈ ohlcvCols, c.1 ≠ nm →
        (∀ r ∈ takeRight hist.length db, (c.2 r).isFinite = true)
      ∧ (∀ r ∈ hist, (c.2 r).isFinite = true)
      ∧ ∀ x ∈ colDiffsQ c.2 (takeRight hist.length db) hist, x ≤ tol) :
    validate_window (hist ++ [lastRow]) db lastRow.timestamp tol
      = ⟨false, "NaN in column " ++ nm, 0⟩ := by
  rw [validate_window_run hist lastRow db tol hne hhour hdblen hts]
  exact checkColumns_nan ohlcvCols (takeRight hist.length db) hist tol hist.length
    nm p hmem (by decide) hne (takeRight_length_of_le _ _ hdblen) hallnan hothers

/-- Witness for C2's amended theorem: a single validation row whose open
is NaN fails naming the open column. -/
theorem validate_window_all_nan_column_witness :
    validate_window ([nanRow08] ++ [r09]) dbN2 r09.timestamp default_tolerance
      = ⟨false, "NaN in column " ++ "open", 0⟩ := by
  apply validate_window_all_nan_column [nanRow08] dbN2 r09 default_tolerance
    "open" Row.open_ (by decide) (by decide) (by decide) (by decide)
    (List.mem_cons_self _ _) (by decide)
  intro c hc hcne
  simp only [ohlcvCols, List.mem_cons, List.not_mem_nil, or_false] at hc
  rcases hc with rfl | rfl | rfl | rfl | rfl
  · exact absurd rfl hcne
  all_goals refine ⟨by decide, by decide, ?_⟩
  all_goals intro x hx
  all_goals simp only [colDiffsQ, takeRight, dbN2, r08, nanRow08, FVal.toQ,
    List.length_cons, List.length_nil, List.zipWith_cons_cons, List.zipWith_nil_right,
    List.mem_cons, List.not_mem_nil, or_false, List.drop] at hx
  all_goals rw [hx]
  all_goals rw [default_tolerance_eq]
  all_goals norm_num

/-- C5: with at least two incoming rows ending at the anchor,
`validate_window` fails whenever the stored tail is shorter than the
validation range (in particular when it is empty); and in single-bar mode
a validation failure against an empty Store tail still appends the anchor
row as an accepted bootstrap, exiting 0. -/
theorem insufficient_history_and_single_bootstrap :
    (∀ (incoming db : List Row) (anchor : ℤ) (tol : ℚ),
        2 ≤ incoming.length →
        (incoming.getLast?).map Row.timestamp = some anchor →
        db.length < incoming.length - 1 →
        (validate_window incoming db anchor tol).ok = false)
  ∧ (∀ (closed store : List Row) (target : ℤ) (n : ℕ) (row_t : Row),
        2 ≤ closed.length →
        closed.getLast? = some row_t →
        row_t.timestamp = target →
        read_last_n_rows_ending_before store (n - 1) target = [] →
        (validate_window closed (read_last_n_rows_ending_before store (n - 1) target)
            target default_tolerance).ok = false
          ∧ runOnceSingle closed target n store
              = RunResult.exit 0 (append_row_if_absent store row_t)) := by
  constructor
  · intro incoming db anchor tol _ hlast hdb
    exact validate_window_short_db incoming db anchor tol hlast hdb
  · intro closed store target n row_t hlen hlast hts hread
    have hvfalse : (validate_window closed
        (read_last_n_rows_ending_before store (n - 1) target)
        target default_tolerance).ok = false := by
      apply validate_window_short_db
      · rw [hlast]
        simp [hts]
      · rw [hread]
        simp only [List.length_nil]
        omega
    refine ⟨hvfalse, ?_⟩
    simp only [runOnceSingle, hlast]
    rw [if_neg (by simp [hts])]
    rw [if_pos]
    rw [hread] at hvfalse ⊢
    rw [hvfalse]
    simp

/-- Witness for C5 at a concrete window against an empty Store. -/
theorem insufficient_history_and_single_bootstrap_witness :
    (validate_window apiA (read_last_n_rows_ending_before [] (6 - 1) 36000)
        36000 default_tolerance).ok = false
  ∧ runOnceSingle apiA 36000 6 [] = RunResult.exit 0 (append_row_if_absent [] r10) :=
  insufficient_history_and_single_bootstrap.2 apiA [] 36000 6 r10
    (by decide) (by decide) (by decide) (by decide)

/-- C1: under the claim's reach conditions (≥ 2 strictly hourly rows
ending at the anchor, a long-enough stored tail, aligned timestamps, and
finite values), validation succeeds with `validated_rows =
len(incoming) - 1` exactly when every column's aligned absolute
differences are within the tolerance (equivalently, when every column's
maximum difference is); and if exactly one column exceeds the tolerance
(as after perturbing a single numeric field from a passing state), the
result is `ok=false` with a reason naming that column. -/
theorem validate_window_tolerance_iff (incoming db : List Row) (anchor : ℤ) (tol : ℚ)
    (hlen2 : 2 ≤ incoming.length)
    (hhour : is_strictly_hourly (tsList incoming) = true)
    (hlast : (incoming.getLast?).map Row.timestamp = some anchor)
    (hdblen : incoming.length - 1 ≤ db.length)
    (hts : tsList (takeRight (incoming.length - 1) db) = tsList incoming.dropLast)
    (hfinDb : ∀ r ∈ takeRight (incoming.length - 1) db, rowAllFinite r = true)
    (hfinApi : ∀ r ∈ incoming.dropLast, rowAllFinite r = true) :
    (((validate_window incoming db anchor tol).ok = true
        ∧ (validate_window incoming db anchor tol).validated_rows
            = incoming.length - 1)
      ↔ ∀ c ∈ ohlcvCols,
          ∀ x ∈ colDiffsQ c.2 (takeRight (incoming.length - 1) db) incoming.dropLast,
            x ≤ tol)
  ∧ (∀ (nm : String) (p : Row → FVal), (nm, p) ∈ ohlcvCols →
      (∃ x ∈ colDiffsQ p (takeRight (incoming.length - 1) db) incoming.dropLast,
          tol < x) →
      (∀ c ∈ ohlcvCols, c.1 ≠ nm →
        ∀ x ∈ colDiffsQ c.2 (takeRight (incoming.length - 1) db) incoming.dropLast,
          x ≤ tol) →
      (validate_window incoming db anchor tol).ok = false
        ∧ ∃ s, (validate_window incoming db anchor tol).reason
            = "mismatch in " ++ nm ++ s) := by
  have hne : incoming ≠ [] := by
    intro hc
    rw [hc] at hlen2
    simp at hlen2
  have hform : incoming.dropLast ++ [incoming.getLast hne] = incoming :=
    List.dropLast_append_getLast hne
  have hlend : incoming.dropLast.length = incoming.length - 1 :=
    List.length_dropLast incoming
  have hanchor : (incoming.getLast hne).timestamp = anchor := by
    rw [List.getLast?_eq_getLast incoming hne] at hlast
    simpa using hlast
  have hdne : incoming.dropLast ≠ [] := by
    intro hc
    have h0 : incoming.dropLast.length = 0 := by rw [hc]; rfl
    rw [hlend] at h0
    omega
  have hrun : validate_window incoming db anchor tol
      = checkColumns ohlcvCols (takeRight (incoming.length - 1) db)
          incoming.dropLast tol (incoming.length - 1) := by
    have h1 := validate_window_run incoming.dropLast (incoming.getLast hne) db tol
      hdne (by rw [hform]; exact hhour) (by rw [hlend]; exact hdblen)
      (by rw [hlend]; exact hts)
    rw [hform, hanchor, hlend] at h1
    exact h1
  have hlen' : (takeRight (incoming.length - 1) db).length = incoming.dropLast.length := by
    rw [takeRight_length_of_le _ _ hdblen, hlend]
  have hco : ColsFinite ohlcvCols (takeRight (incoming.length - 1) db) incoming.dropLast :=
    colsFinite_of_rows _ _ hfinDb hfinApi
  constructor
  · rw [hrun]
    have hok := checkColumns_ok_iff ohlcvCols (takeRight (incoming.length - 1) db)
      incoming.dropLast tol (incoming.length - 1) hdne hlen' hco
    have hstats := checkColumns_stats ohlcvCols (takeRight (incoming.length - 1) db)
      incoming.dropLast tol (incoming.length - 1)
    constructor
    · rintro ⟨hok1, -⟩
      exact hok.mp hok1
    · intro h
      have h1 := hok.mpr h
      refine ⟨h1, ?_⟩
      rw [hstats.1, h1]
      simp
  · intro nm p hmem hexceed hothers
    rw [hrun]
    exact checkColumns_mismatch ohlcvCols (takeRight (incoming.length - 1) db)
      incoming.dropLast tol (incoming.length - 1) nm p hmem (by decide)
      hdne hlen' hco hexceed hothers

/-- Witness for C1: the repo's own happy-path scenario (API 08:00-10:00
against stored 08:00-09:00) validates 2 rows. -/
theorem validate_window_tolerance_iff_witness :
    (validate_window apiA dbA 36000 default_tolerance).ok = true
  ∧ (validate_window apiA dbA 36000 default_tolerance).validated_rows
      = apiA.length - 1 := by
  have h := (validate_window_tolerance_iff apiA dbA 36000 default_tolerance
    (by decide) (by decide) (by decide) (by decide) (by decide) (by decide)
    (by decide)).1
  apply h.mpr
  intro c hc x hx
  simp only [ohlcvCols, List.mem_cons, List.not_mem_nil, or_false] at hc
  rcases hc with rfl | rfl | rfl | rfl | rfl <;>
    simp [colDiffsQ, takeRight, dbA, apiA, r08, r09, r10, FVal.toQ] at hx <;>
    rw [hx, default_tolerance_eq] <;>
    norm_num

/-- C8: in catch-up mode with a non-empty Store and successful overlap
validation, the run exits 0 having appended exactly the closed rows with
timestamp strictly greater than the Store's max, in ascending order; and
an immediate re-run on the resulting Store with the same closed window
leaves the Store unchanged. -/
theorem catchup_append_set (closed store : List Row) (target mn mx : ℤ)
    (cnt n : ℕ) (lastRow : Row)
    (hcov : coverage_stats store = some (mn, mx, cnt))
    (hlast : closed.getLast? = some lastRow)
    (hts : lastRow.timestamp = target)
    (hsorted : List.Pairwise (fun a b : Row => a.timestamp < b.timestamp) closed)
    (hov : overlapOf closed mx ≠ [])
    (hvok : (catchupValidation store closed mx n).ok = true) :
    runOnceCatchup closed target n store
        = RunResult.exit 0 (store ++ closed.filter (fun r => decide (mx < r.timestamp)))
    ∧ List.Pairwise (fun a b : Row => a.timestamp < b.timestamp)
        (closed.filter (fun r => decide (mx < r.timestamp)))
    ∧ (runOnceCatchup closed target n
          (store ++ closed.filter (fun r => decide (mx < r.timestamp)))).store
        = store ++ closed.filter (fun r => decide (mx < r.timestamp)) := by
  have hsubl : List.Sublist (closed.filter (fun r => decide (mx < r.timestamp))) closed :=
    List.filter_sublist closed
  have hpairA : List.Pairwise (fun a b : Row => a.timestamp < b.timestamp)
      (closed.filter (fun r => decide (mx < r.timestamp))) :=
    hsorted.sublist hsubl
  have happ : appendAll store (closed.filter (fun r => decide (mx < r.timestamp)))
      = store ++ closed.filter (fun r => decide (mx < r.timestamp)) := by
    apply appendAll_eq_append
    · intro r hr s hs
      have h1 : mx < r.timestamp := by simpa using List.of_mem_filter hr
      have h2 : s.timestamp ≤ mx := coverage_max_ub store mn mx cnt hcov s hs
      omega
    · exact hpairA.imp (fun hab => ne_of_lt hab)
  refine ⟨?_, hpairA, ?_⟩
  · simp only [runOnceCatchup, hlast, hcov]
    rw [if_neg (by simp [hts])]
    rw [if_neg (by simp [List.isEmpty_iff, hov])]
    rw [hvok]
    simp only [Bool.not_true, Bool.false_eq_true, if_false]
    rw [happ]
  · have hstne : store ≠ [] := by
      intro hc
      rw [hc] at hcov
      cases hcov
    have hS'ne : store ++ closed.filter (fun r => decide (mx < r.timestamp)) ≠ [] := by
      intro hc
      exact hstne (List.append_eq_nil.mp hc).1
    obtain ⟨mn', mx', cnt', hcov'⟩ := coverage_stats_ne_none _ hS'ne
    have hub' : ∀ r ∈ store ++ closed.filter (fun r => decide (mx < r.timestamp)),
        r.timestamp ≤ mx' := coverage_max_ub _ mn' mx' cnt' hcov'
    have hmxle : mx ≤ mx' := by
      obtain ⟨s, hs, hsts⟩ := coverage_max_mem store mn mx cnt hcov
      calc mx = s.timestamp := hsts.symm
        _ ≤ mx' := hub' s (List.mem_append_left _ hs)
    have hallle : ∀ r ∈ closed, r.timestamp ≤ mx' := by
      intro r hr
      by_cases hgt : mx < r.timestamp
      · exact hub' r (List.mem_append_right _
          (List.mem_filter.mpr ⟨hr, by simpa using hgt⟩))
      · exact le_trans (not_lt.mp hgt) hmxle
    have hclosedne : closed ≠ [] := by
      intro hc
      rw [hc] at hlast
      cases hlast
    have hov2 : overlapOf closed mx' = closed := by
      unfold overlapOf
      apply List.filter_eq_self.mpr
      intro r hr
      simpa using hallle r hr
    simp only [runOnceCatchup, hlast, hcov']
    rw [if_neg (by simp [hts])]
    rw [hov2]
    rw [if_neg (by simp [List.isEmpty_iff, hclosedne])]
    cases hv2 : (catchupValidation
        (store ++ closed.filter (fun r => decide (mx < r.timestamp))) closed mx' n).ok with
    | false => simp [RunResult.store]
    | true =>
      have hfe : closed.filter (fun r => decide (mx' < r.timestamp)) = [] := by
        apply List.filter_eq_nil_iff.mpr
        intro r hr
        simpa using not_lt.mpr (hallle r hr)
      simp [hfe, appendAll, RunResult.store]

/-- Witness for C8: Store {08:00, 09:00}, closed Source window
08:00-11:00, `n_recent = 4` — the repo's own catch-up bridging test. -/
theorem catchup_append_set_witness :
    runOnceCatchup closedB 39600 4 storeB
      = RunResult.exit 0
          (storeB ++ closedB.filter (fun r => decide ((32400 : ℤ) < r.timestamp))) :=
  (catchup_append_set closedB storeB 39600 28800 32400 2 4 r11
    (by decide) (by decide) (by decide) (by decide) (by decide) (by decide)).1

/-- C10: whenever NaN-dropping, de-duplication and the inclusive range
filter leave zero rows — e.g. any range filter with `end < start` —
`clean_transform` hits the out-of-bounds `iloc[0]` (modelled as `none`)
instead of returning an empty frame; equivalently, a normal return is
always non-empty. -/
theorem clean_transform_nonempty_or_raises :
    (∀ (rows : List RawRow) (s e : ℤ), e < s →
        clean_transform rows (some s) (some e) = none)
  ∧ (∀ (rows : List RawRow) (s? e? : Option ℤ) (res : List Row),
        clean_transform rows s? e? = some res → res ≠ []) := by
  constructor
  · intro rows s e hlt
    have hempty : cleanPipeline rows (some s) (some e) = [] := by
      unfold cleanPipeline
      simp only
      apply List.filter_eq_nil_iff.mpr
      intro r hr
      have hs : s ≤ r.timestamp := by simpa using List.of_mem_filter hr
      simp only [decide_eq_true_eq]
      omega
    unfold clean_transform
    rw [hempty]
    rfl
  · intro rows s? e? res h
    unfold clean_transform at h
    split at h
    · cases h
    · next hemp =>
      have hres : cleanPipeline rows s? e? = res := Option.some.inj h
      rw [← hres]
      exact fun hc => hemp (by rw [hc]; rfl)

/-- Witness for C10: a range filter excluding every timestamp yields the
raise, and the unfiltered clean of the sample rows is non-empty. -/
theorem clean_transform_nonempty_or_raises_witness :
    clean_transform sampleRawRows (some 50000) (some 40000) = none
  ∧ sampleCleanOut ≠ [] :=
  ⟨clean_transform_nonempty_or_raises.1 sampleRawRows 50000 40000 (by decide),
   clean_transform_nonempty_or_raises.2 sampleRawRows none none sampleCleanOut
     (by decide)⟩
